import Mathlib

/-!
Verification of the run-orchestration and isolation-bisection core of
`stestr/commands/run.py` (the `run_command`, `_prior_tests` and `_run_tests`
functions), as a shallow embedding in Lean.

External collaborators (subprocess spawning, the Stream Loader, the
Repository) are abstracted as oracle functions passed to the embedded
control flow, exactly where the Python code calls out to them; everything
the source computes itself (dictionary building, slicing, the bisection
loop state machine, result reconciliation) is translated directly.
-/

namespace Stestr

/-- A recorded test event as seen by the `StreamToDict` callbacks in
`run.py`: a test id plus its tag set (`test_dict['id']`, `test_dict['tags']`). -/
structure Event where
  id : String
  tags : List String
deriving DecidableEq, Repr

/-- A worker key: `worker-N` tags are kept as `some tag`; an event with no
`worker-` tag is filed under the sentinel `None`, modelled as `none`
(`run.py`, `map_test`: `if not workers: workers = [None]`). -/
abbrev WKey := Option String

/-- Python's `tag.startswith(pre)`, at the character level. -/
def pyStartsWith (t pre : String) : Bool :=
  pre.data.isPrefixOf t.data

/-- The worker tags of one event (`map_test` in `_prior_tests`):
all tags starting with `"worker-"`, or the sentinel `none` when there are
none. -/
def workersOf (e : Event) : List WKey :=
  let ws := e.tags.filter (fun t => pyStartsWith t "worker-")
  if ws.isEmpty then [none] else ws.map some

/-- Lookup in a Python dictionary modelled as an association list. -/
def dictGet {K V : Type} [DecidableEq K] : List (K × V) → K → Option V
  | [], _ => none
  | (k', v) :: d, k => if k' = k then some v else dictGet d k

/-- `d.setdefault(k, []).append`/`.extend(xs)`: append `xs` to the list
stored at key `k`, inserting the key (at the end) if absent. -/
def dictPush {K V : Type} [DecidableEq K] :
    List (K × List V) → K → List V → List (K × List V)
  | [], k, xs => [(k, xs)]
  | (k', v) :: d, k, xs =>
    if k' = k then (k', v ++ xs) :: d else (k', v) :: dictPush d k xs

/-- The pair of dictionaries built by `map_test`:
`worker_to_test : worker -> [testid, ...]` and
`test_to_worker : testid -> [workerN, ...]`. -/
abbrev HistMaps := List (WKey × List String) × List (String × List WKey)

/-- Processing of one event by `map_test`: the id is appended to every one of
its workers' lists, and the workers are appended to the id's list. -/
def buildStep (m : HistMaps) (e : Event) : HistMaps :=
  let ws := workersOf e
  (ws.foldl (fun wt w => dictPush wt w [e.id]) m.1, dictPush m.2 e.id ws)

/-- The `WorkerHistory` maps built by running `StreamToDict(map_test)` over
the whole recorded event stream, in arrival order. -/
def buildMaps (events : List Event) : HistMaps :=
  events.foldl buildStep ([], [])

/-- `worker_to_test[w]` as a list (empty when the key is absent). -/
def workerSeq (events : List Event) (w : WKey) : List String :=
  (dictGet (buildMaps events).1 w).getD []

/-- `test_to_worker[id]` as a list (empty when the key is absent). -/
def workersOfId (events : List Event) (id : String) : List WKey :=
  (dictGet (buildMaps events).2 id).getD []

/-- Python's `list.index`: index of the first occurrence. -/
def pyIndex (l : List String) (a : String) : Nat :=
  l.findIdx (fun x => x == a)

/-- The body of the `for worker in failing_workers` loop of `_prior_tests`:
`worker_tests = self._worker_to_test[worker]` (a `KeyError`, modelled as
`.error ()`, if the key is absent) followed by
`prior_tests.extend(worker_tests[:worker_tests.index(failing_id)])`
(`list.index` raises `ValueError` when the id is absent, also modelled as
`.error ()`). -/
def priorOfWorker (wt : List (WKey × List String)) (id : String) (w : WKey) :
    Except Unit (List String) :=
  match dictGet wt w with
  | none => .error ()
  | some l => if l.contains id then .ok (l.take (pyIndex l id)) else .error ()

/-- The accumulation loop of `_prior_tests` over the failing id's workers;
errors abort the loop, as a raised exception would. -/
def priorLoop (wt : List (WKey × List String)) (id : String) :
    List WKey → Except Unit (List String)
  | [] => .ok []
  | w :: ws =>
    match priorOfWorker wt id w with
    | .error e => .error e
    | .ok l =>
      match priorLoop wt id ws with
      | .error e => .error e
      | .ok rest => .ok (l ++ rest)

/-- `_prior_tests` after the maps are available:
`failing_workers = self._test_to_worker[failing_id]` (a `KeyError`, modelled
as `.error ()`, when the failing id is absent), then the accumulation loop. -/
def priorTestsCore (m : HistMaps) (failingId : String) :
    Except Unit (List String) :=
  match dictGet m.2 failingId with
  | none => .error ()
  | some ws => priorLoop m.1 failingId ws

/-- `_prior_tests` on a freshly built history (no cache yet). -/
def priorTests (events : List Event) (failingId : String) :
    Except Unit (List String) :=
  priorTestsCore (buildMaps events) failingId

/-- The isolation analyzer's memoised state: `_worker_to_test` /
`_test_to_worker`, absent before the first call. -/
structure Analyzer where
  cache : Option HistMaps

/-- Stateful `_prior_tests`: the maps are rebuilt when the cached
`_worker_to_test` attribute is missing or falsy (Python:
`if not getattr(self, '_worker_to_test', False)` — an empty dict is falsy),
then stored back on the analyzer. -/
def priorTestsM (a : Analyzer) (events : List Event) (failingId : String) :
    Except Unit (List String) × Analyzer :=
  let m :=
    match a.cache with
    | some c => if c.1.isEmpty then buildMaps events else c
    | none => buildMaps events
  (priorTestsCore m failingId, ⟨some m⟩)

/-- The bisection loop of `analyze_isolation` *as written*
(`run_command`, lines 351-398).  State is the half-open range
`[bottom, top)` over `candidate_causes`; at each iteration
`check_width = ceil(width / 2.0)` candidates plus the spurious failure are
re-run (abstracted by `oracle`, which returns `found_fail`: whether the
repository's failing set contains the spurious failure afterwards).
Returns the number of probe executions performed and the recorded cause,
if any.  Note: in this snapshot the loop is unreachable — the probe call
`_run_tests(cmd)` at line 365 is malformed and raises `TypeError` at the
call site (see `isolationBranchExec` below); this function translates the
loop body itself, as the form the refactored
`bisect_tests.IsolationAnalyzer` executes. -/
def bisectLoop (cands : List String) (failing : String)
    (oracle : List String → Bool) (bottom top : Nat) : Nat × Option String :=
  if top - bottom = 0 then (0, none)
  else if oracle ((cands.drop bottom).take ((top - bottom + 1) / 2) ++ [failing]) then
    if top - bottom = 1 then (1, some (cands.getD bottom ""))
    else
      let r := bisectLoop cands failing oracle bottom (bottom + (top - bottom + 1) / 2)
      (r.1 + 1, r.2)
  else
    if top - bottom = 1 then (1, none)
    else
      let r := bisectLoop cands failing oracle (bottom + (top - bottom + 1) / 2) top
      (r.1 + 1, r.2)
termination_by top - bottom
decreasing_by
  · omega
  · omega

/-- The value a spurious failure ends up mapped to in `test_conflicts`:
the cause found by the bisection loop, or the literal
`"unknown - no conflicts"` when the loop ended without a finding
(`run_command`, lines 399-401). -/
def conflictValue (cands : List String) (failing : String)
    (oracle : List String → Bool) : String :=
  match (bisectLoop cands failing oracle 0 cands.length).2 with
  | some c => c
  | none => "unknown - no conflicts"

/-- The final `test_conflicts` map, one entry per spurious failure, built
incrementally and never retracted (`run_command`, lines 346-401).
`cc s` is the ordered candidate-cause list `_prior_tests` returned for `s`;
`oracle s` abstracts the probe executions for `s`. -/
def isolationConflicts (spurious : List String)
    (cc : String → List String) (oracle : String → List String → Bool) :
    List (String × String) :=
  spurious.map (fun s => (s, conflictValue (cc s) s (oracle s)))

/-- The exit code of the `analyze_isolation` branch after phase a:
`0` when there were no spurious failures (`if not spurious_failures:
return 0`), otherwise `3` if `test_conflicts` is non-empty else `0`
(`run_command`, lines 343-345 and 402-408). -/
def isolationRetCode (spurious : List String)
    (cc : String → List String) (oracle : String → List String → Bool) : Nat :=
  if spurious.isEmpty then 0
  else if (isolationConflicts spurious cc oracle).isEmpty then 0 else 3

/-- The `analyze_isolation` branch of `run_command` (lines 312-408) under
the idealization that the per-id phase-a call returned an exit code
(`passesAlone`).  With a non-empty `ids` that idealization does not hold
of this snapshot — the call raises `TypeError`, see `isolationBranchExec`
— but at `ids = []` the phase-a loop body never runs, so this model and
the source agree exactly there: that is the input at which it is used.
Returns `(number of spawned test batches, exit code)`. -/
def isolationBranch (ids : List String) (passesAlone : String → Bool)
    (inLatest : String → Bool) (cc : String → List String)
    (oracle : String → List String → Bool) : Nat × Nat :=
  let spurious := ids.filter (fun t => passesAlone t && inLatest t)
  if spurious.isEmpty then (ids.length, 0)
  else
    let probes := (spurious.map
      (fun s => (bisectLoop (cc s) s (oracle s) 0 (cc s).length).1)).sum
    (ids.length + probes, isolationRetCode spurious cc oracle)

/-- A Python exception, as far as this model needs one. -/
inductive PyErr
  | typeError
deriving DecidableEq, Repr

/-- The call expression `_run_tests(cmd)` at `run.py` lines 329 and 365:
`_run_tests` is `def _run_tests(cmd, failing, analyze_isolation, isolated,
until_failure, subunit_out=False, ...)` — four of its first five
positional parameters have no default — so supplying the single argument
`cmd` makes Python raise `TypeError` at the call site, before the callee's
body (and hence any `setUp` or subprocess spawn) executes. -/
def runTestsCallArity1 : Except PyErr Nat := .error .typeError

/-- The call expression `_prior_tests(latest_run, spurious_failure)` at
`run.py` line 349: `_prior_tests(self, run, failing_id)` requires three
positional arguments; the call supplies two, so `failing_id` is missing
and Python raises `TypeError` at the call site. -/
def priorTestsCallArity2 : Except PyErr (List String) := .error .typeError

/-- Phase a of the `analyze_isolation` branch (`run_command`,
lines 320-342) as the source executes it: per candidate failing id,
evaluate `if not _run_tests(cmd)` — the arity-1 call — and, on a falsy
(zero) result, add the id to `spurious_failures` when it belongs to the
latest run's id set.  A raised exception aborts the loop and propagates. -/
def isolationStageOne (inLatest : String → Bool) :
    List String → List String → Except PyErr (List String)
  | [], spurious => .ok spurious
  | t :: rest, spurious =>
    match runTestsCallArity1 with
    | .error e => .error e
    | .ok r =>
      if r = 0 then
        isolationStageOne inLatest rest
          (if inLatest t then spurious ++ [t] else spurious)
      else isolationStageOne inLatest rest spurious

/-- Phase b of the `analyze_isolation` branch (`run_command`,
lines 346-401) as the source executes it: for each spurious failure,
first `candidate_causes = _prior_tests(latest_run, spurious_failure)` —
the arity-2 call — then the bisection loop over that list.  Accumulates
the `test_conflicts` entries and the number of probe executions; a raised
exception propagates. -/
def isolationStageTwo (oracle : String → List String → Bool) :
    List String → List (String × String) → Nat →
      Except PyErr (List (String × String) × Nat)
  | [], conflicts, probes => .ok (conflicts, probes)
  | s :: rest, conflicts, probes =>
    match priorTestsCallArity2 with
    | .error e => .error e
    | .ok cands =>
      isolationStageTwo oracle rest
        (conflicts ++ [(s, conflictValue cands s (oracle s))])
        (probes + (bisectLoop cands s (oracle s) 0 cands.length).1)

/-- The `analyze_isolation` branch of `run_command` (lines 312-408) as the
source actually executes it, the two malformed helper calls modelled at
their call sites.  Returns the raised exception, or the exit code together
with the final `test_conflicts` map and the number of bisection probes
executed. -/
def isolationBranchExec (inLatest : String → Bool)
    (oracle : String → List String → Bool) (ids : List String) :
    Except PyErr (Nat × List (String × String) × Nat) :=
  match isolationStageOne inLatest ids [] with
  | .error e => .error e
  | .ok spurious =>
    if spurious.isEmpty then .ok (0, [], 0)
    else
      match isolationStageTwo oracle spurious [] 0 with
      | .error e => .error e
      | .ok (conflicts, probes) =>
        .ok (if conflicts.isEmpty then 0 else 3, conflicts, probes)

/-- One iteration's computed result in the `until_failure` loop of
`_run_tests` (lines 479-497): the Stream Loader's return value, overridden
to `1` when subunit output was requested (`if subunit_out:`) and re-decoding
the just-persisted latest run found a non-successful event
(`if not summary.wasSuccessful(): result = 1`). -/
def batchIterResult (subunitOut : Bool) (loadResult : Nat)
    (streamSuccess : Bool) : Nat :=
  if subunitOut then (if streamSuccess then loadResult else 1) else loadResult

/-- The guard of the re-check in the ad-hoc (`no_discover`) until-failure
loop, `run_command` line 233: the Python code tests `if subunit:` where
`subunit` is the imported *module* object — a module is always truthy — so
the guard does not depend on the `subunit_out` flag at all. -/
def adhocRecheckGuard : Bool := true

/-- One iteration's computed result in the ad-hoc (`no_discover`)
until-failure loop of `run_command` (lines 228-245).  The `subunitOut`
parameter is accepted (the flag is in scope in the source) but, faithfully
to the code, never consulted: the guard is `adhocRecheckGuard`. -/
def adhocIterResult (subunitOut : Bool) (loadResult : Nat)
    (streamSuccess : Bool) : Nat :=
  if adhocRecheckGuard then (if streamSuccess then loadResult else 1)
  else loadResult

/-- The `while True` retry loop shared by both until-failure paths:
run an iteration, return its computed result as soon as it is non-zero
(`if result: return result`).  The loop itself is unbounded in the source;
`fuel` only bounds this executable model, and the theorems quantify over
every sufficiently large fuel.  Returns `(number of iterations executed,
returned result)`. -/
def untilFailureLoop (res : Nat → Nat) : Nat → Nat → Option (Nat × Nat)
  | 0, _ => none
  | fuel + 1, i =>
    if res i ≠ 0 then some (i + 1, res i) else untilFailureLoop res fuel (i + 1)

/-- Lifecycle events of a duck-typed run command, as invoked by
`run_command`/`_run_tests`. -/
inductive Ev
  | setUp
  | listTests
  | runBatch
  | cleanUp
deriving DecidableEq, Repr

/-- `_run_tests` as a traced computation: `cmd.setUp()`, the batch body
(abstracted into its outcome `r` — a loader exit code, or a propagated
exception), and `cmd.cleanUp()` in a `finally:` block, hence present in the
trace whatever the outcome (lines 458, 498-499). -/
def runTestsTraced (r : Except String Nat) : Except String Nat × List Ev :=
  (r, [Ev.setUp, Ev.runBatch, Ev.cleanUp])

/-- The per-test loop of isolated mode (`run_command`, lines 279-301):
each discovered id is run as an independent single-id `_run_tests`
invocation; `result` keeps the maximum exit code seen
(`if run_result > result: result = run_result`); a propagated exception
aborts the loop (there is no try/except around it), after that run's own
`cleanUp` already happened. -/
def isolatedLoop (f : String → Except String Nat) :
    List String → Nat → Except String Nat × List Ev
  | [], acc => (.ok acc, [])
  | id :: rest, acc =>
    let (r, tr) := runTestsTraced (f id)
    match r with
    | .ok c =>
      let (res, tr') := isolatedLoop f rest (max acc c)
      (res, tr ++ tr')
    | .error e => (.error e, tr)

/-- Isolated mode as a whole (`run_command`, lines 272-301): a discovery
pass `setUp` / `list_tests` / `cleanUp` (the `cleanUp` in a `finally:`),
then the per-test loop starting from `result = 0`. -/
def isolatedMode (ids : List String) (f : String → Except String Nat) :
    Except String Nat × List Ev :=
  let r := isolatedLoop f ids 0
  (r.1, [Ev.setUp, Ev.listTests, Ev.cleanUp] ++ r.2)

/-- The number of per-test `_run_tests` invocations the isolated-mode loop
starts: all of them when none propagates an error, else up to and including
the first erroring one. -/
def runsStarted (f : String → Except String Nat) : List String → Nat
  | [] => 0
  | id :: rest =>
    match f id with
    | .ok _ => runsStarted f rest + 1
    | .error _ => 1

/-- The exit code of a non-erroring per-test run (0 for an error; only used
under a no-error hypothesis). -/
def exitOf : Except String Nat → Nat
  | .ok c => c
  | .error _ => 0

/-- Python's `str.rfind`: index of the last occurrence, `-1` if absent. -/
def pyRFind (s : List Char) (c : Char) : Int :=
  match s with
  | [] => -1
  | x :: xs =>
    let r := pyRFind xs c
    if r ≥ 0 then r + 1 else if x = c then 0 else -1

/-- `os.path.splitext(p)[0]` for POSIX paths, translated from CPython's
`genericpath._splitext`: find the last `/` and the last `.`; when the dot
lies after the separator and the characters between them are not all dots
(the leading-dot skip loop), the root is everything before the dot. -/
def splitextRoot (p : List Char) : List Char :=
  let sepIndex := pyRFind p '/'
  let dotIndex := pyRFind p '.'
  if dotIndex > sepIndex then
    if ((p.take dotIndex.toNat).drop (sepIndex + 1).toNat).any
        (fun ch => ch != '.') then
      p.take dotIndex.toNat
    else p
  else p

/-- The character replacement of `root.replace('/', '.')`. -/
def dotRepl (c : Char) : Char := if c = '/' then '.' else c

/-- The id handed to the ad-hoc worker (`run_command`, lines 207-211):
the input unchanged unless it contains a `/` (`ids.find('/') != -1`),
in which case `root, _ = os.path.splitext(ids); ids = root.replace('/', '.')`. -/
def pyAdhocId (p : List Char) : List Char :=
  if '/' ∈ p then (splitextRoot p).map dotRepl else p

/-- Split a char list at its *last* `/`: `some (d, b)` with
`p = d ++ '/' :: b` and `b` separator-free, `none` when there is no
separator.  Used only to state the specification-level reading of the
ad-hoc transform. -/
def splitLastSep : List Char → Option (List Char × List Char)
  | [] => none
  | c :: cs =>
    match splitLastSep cs with
    | some (d, b) => some (c :: d, b)
    | none => if c = '/' then some ([], cs) else none

/-- Index of the last occurrence, as an `Option` (spec-level counterpart of
`pyRFind`). -/
def rfind? : List Char → Char → Option Nat
  | [], _ => none
  | x :: xs, c =>
    match rfind? xs c with
    | some r => some (r + 1)
    | none => if x = c then some 0 else none

/-- Modelled from the spec's words: strip the *final extension* of a file
name — the part from the last dot onward, provided the name has a
non-dot character before that dot (a name of leading dots has no
extension). -/
def specStripExt (b : List Char) : List Char :=
  match rfind? b '.' with
  | none => b
  | some d => if (b.take d).any (fun ch => ch != '.') then b.take d else b

/-- Modelled from the spec's words (§4.1 mode 1, §8): a path is converted to
the canonical dotted id by splitting off the final path segment, stripping
that segment's final extension, and replacing every path separator by a
dot; an input without a separator is passed through unchanged. -/
def specAdhocId (p : List Char) : List Char :=
  match splitLastSep p with
  | none => p
  | some (d, b) => (d ++ '/' :: specStripExt b).map dotRepl

/-! ### Dictionary lemmas -/

theorem dictGet_dictPush_self {K V : Type} [DecidableEq K]
    (d : List (K × List V)) (k : K) (xs : List V) :
    dictGet (dictPush d k xs) k = some ((dictGet d k).getD [] ++ xs) := by
  induction d with
  | nil => simp [dictPush, dictGet]
  | cons hd tl ih =>
    obtain ⟨k', v⟩ := hd
    by_cases h : k' = k
    · subst h
      simp [dictPush, dictGet]
    · simp [dictPush, dictGet, h, ih]

theorem dictGet_dictPush_ne {K V : Type} [DecidableEq K]
    (d : List (K × List V)) (k k' : K) (xs : List V) (h : k' ≠ k) :
    dictGet (dictPush d k xs) k' = dictGet d k' := by
  induction d with
  | nil => simp [dictPush, dictGet, Ne.symm h]
  | cons hd tl ih =>
    obtain ⟨k0, v⟩ := hd
    by_cases h0 : k0 = k
    · subst h0
      simp [dictPush, dictGet, Ne.symm h]
    · simp only [dictPush, if_neg h0, dictGet]
      by_cases h1 : k0 = k'
      · simp [h1]
      · simp [h1, ih]

/-- Effect on `worker_to_test` of the inner `for worker in workers` loop of
`map_test`, at a key `w`, when the workers of the event are distinct (tags
come from a set in the subunit protocol). -/
theorem foldl_push_get (ws : List WKey) (wt : List (WKey × List String))
    (x : String) (w : WKey) (hnd : ws.Nodup) :
    dictGet (ws.foldl (fun a w' => dictPush a w' [x]) wt) w =
      if w ∈ ws then some ((dictGet wt w).getD [] ++ [x]) else dictGet wt w := by
  induction ws generalizing wt with
  | nil => simp
  | cons w0 ws ih =>
    simp only [List.foldl_cons]
    have hnd' : ws.Nodup := hnd.of_cons
    by_cases hw : w = w0
    · subst hw
      have hnin : w ∉ ws := by
        intro hmem
        exact (List.nodup_cons.mp hnd).1 hmem
      rw [ih _ hnd', if_neg hnin, dictGet_dictPush_self]
      simp
    · rw [ih _ hnd']
      by_cases hmem : w ∈ ws
      · rw [if_pos hmem, if_pos (List.mem_cons_of_mem _ hmem),
          dictGet_dictPush_ne _ _ _ _ hw]
      · rw [if_neg hmem, dictGet_dictPush_ne _ _ _ _ hw, if_neg]
        simp [hw, hmem]

/-- Monotonicity of the inner loop: entries already recorded for a worker
are preserved. -/
theorem foldl_push_mem (ws : List WKey) (wt : List (WKey × List String))
    (x y : String) (w : WKey)
    (h : y ∈ (dictGet wt w).getD []) :
    y ∈ (dictGet (ws.foldl (fun a w' => dictPush a w' [x]) wt) w).getD [] := by
  induction ws generalizing wt with
  | nil => exact h
  | cons w0 ws ih =>
    simp only [List.foldl_cons]
    apply ih
    by_cases hw : w = w0
    · subst hw
      rw [dictGet_dictPush_self]
      simp only [Option.getD_some]
      exact List.mem_append_left _ h
    · rw [dictGet_dictPush_ne _ _ _ _ hw]
      exact h

/-- The inner loop records the event's id under each of its workers. -/
theorem foldl_push_mem_self (ws : List WKey) (wt : List (WKey × List String))
    (x : String) (w : WKey) (h : w ∈ ws) :
    x ∈ (dictGet (ws.foldl (fun a w' => dictPush a w' [x]) wt) w).getD [] := by
  induction ws generalizing wt with
  | nil => cases h
  | cons w0 ws ih =>
    simp only [List.foldl_cons]
    rcases List.mem_cons.mp h with h0 | hmem
    · subst h0
      apply foldl_push_mem
      rw [dictGet_dictPush_self]
      simp
    · exact ih _ hmem

/-! ### Characterizations of the WorkerHistory maps -/

/-- `worker_to_test[w]`, generalized over the accumulator: the recorded
sequence for worker `w` extends the accumulator's by the ids of the events
tagged with `w`, in arrival order. -/
theorem foldl_buildStep_workerSeq (events : List Event) (m : HistMaps)
    (w : WKey) (hnd : ∀ e ∈ events, (workersOf e).Nodup) :
    (dictGet (events.foldl buildStep m).1 w).getD [] =
      (dictGet m.1 w).getD [] ++
        (events.filter (fun e => decide (w ∈ workersOf e))).map (·.id) := by
  induction events generalizing m with
  | nil => simp
  | cons e es ih =>
    simp only [List.foldl_cons]
    rw [ih _ (fun e' he' => hnd e' (List.mem_cons_of_mem _ he'))]
    by_cases hw : w ∈ workersOf e
    · rw [List.filter_cons_of_pos (by simpa using hw)]
      simp only [buildStep, List.map_cons]
      rw [foldl_push_get _ _ _ _ (hnd e (List.mem_cons_self _ _)), if_pos hw]
      simp
    · rw [List.filter_cons_of_neg (by simpa using hw)]
      simp only [buildStep]
      rw [foldl_push_get _ _ _ _ (hnd e (List.mem_cons_self _ _)), if_neg hw]

/-- Arrival-order characterization of `worker_to_test[w]`. -/
theorem workerSeq_eq (events : List Event) (w : WKey)
    (hnd : ∀ e ∈ events, (workersOf e).Nodup) :
    workerSeq events w =
      (events.filter (fun e => decide (w ∈ workersOf e))).map (·.id) := by
  have h := foldl_buildStep_workerSeq events ([], []) w hnd
  simpa [workerSeq, buildMaps, dictGet] using h

/-- `test_to_worker[id]`, generalized over the accumulator: the workers an
id is associated with are those of its events, concatenated in arrival
order (with multiplicity). -/
theorem foldl_buildStep_workersOfId (events : List Event) (m : HistMaps)
    (id : String) :
    (dictGet (events.foldl buildStep m).2 id).getD [] =
      (dictGet m.2 id).getD [] ++
        (events.filter (fun e => e.id == id)).flatMap workersOf := by
  induction events generalizing m with
  | nil => simp
  | cons e es ih =>
    simp only [List.foldl_cons]
    rw [ih]
    by_cases hid : e.id = id
    · rw [List.filter_cons_of_pos (by simpa using hid)]
      simp only [buildStep, List.flatMap_cons]
      rw [hid, dictGet_dictPush_self]
      simp
    · rw [List.filter_cons_of_neg (by simpa using hid)]
      simp only [buildStep]
      rw [dictGet_dictPush_ne _ _ _ _ (by simpa using Ne.symm hid)]

/-- Arrival-order characterization of `test_to_worker[id]`. -/
theorem workersOfId_eq (events : List Event) (id : String) :
    workersOfId events id =
      (events.filter (fun e => e.id == id)).flatMap workersOf := by
  have h := foldl_buildStep_workersOfId events ([], []) id
  simpa [workersOfId, buildMaps, dictGet] using h

/-- The `test_to_worker` lookup misses exactly when no event carries the id,
generalized over the accumulator. -/
theorem foldl_buildStep_get_none (events : List Event) (m : HistMaps)
    (id : String) :
    dictGet (events.foldl buildStep m).2 id = none ↔
      (dictGet m.2 id = none ∧ ∀ e ∈ events, e.id ≠ id) := by
  induction events generalizing m with
  | nil => simp
  | cons e es ih =>
    simp only [List.foldl_cons]
    rw [ih]
    by_cases hid : e.id = id
    · subst hid
      simp only [buildStep, dictGet_dictPush_self]
      simp
    · simp only [buildStep]
      rw [dictGet_dictPush_ne _ _ _ _ (Ne.symm hid)]
      constructor
      · rintro ⟨h1, h2⟩
        exact ⟨h1, by
          intro e' he'
          rcases List.mem_cons.mp he' with rfl | hm
          · exact hid
          · exact h2 e' hm⟩
      · rintro ⟨h1, h2⟩
        exact ⟨h1, fun e' he' => h2 e' (List.mem_cons_of_mem _ he')⟩

/-- A failing id that appears in no event is absent from `test_to_worker`. -/
theorem dictGet_buildMaps_none (events : List Event) (id : String)
    (h : ∀ e ∈ events, e.id ≠ id) :
    dictGet (buildMaps events).2 id = none := by
  rw [buildMaps, foldl_buildStep_get_none]
  exact ⟨rfl, h⟩

/-- Conversely, an id that does appear is present in `test_to_worker`. -/
theorem dictGet_buildMaps_isSome (events : List Event) (id : String)
    (h : ∃ e ∈ events, e.id = id) :
    dictGet (buildMaps events).2 id = some (workersOfId events id) := by
  rcases hnone : dictGet (buildMaps events).2 id with _ | ws
  · rw [buildMaps, foldl_buildStep_get_none] at hnone
    obtain ⟨e, he, heid⟩ := h
    exact absurd heid (hnone.2 e he)
  · rw [workersOfId, hnone]
    rfl

/-- Cross-map invariant, generalized over the accumulator. -/
theorem foldl_buildStep_cross (events : List Event) :
    ∀ m : HistMaps,
      (∀ i u, u ∈ (dictGet m.2 i).getD [] → i ∈ (dictGet m.1 u).getD []) →
      ∀ i u, u ∈ (dictGet (events.foldl buildStep m).2 i).getD [] →
        i ∈ (dictGet (events.foldl buildStep m).1 u).getD [] := by
  induction events with
  | nil => exact fun m hm => hm
  | cons e es ih =>
    intro m hm
    simp only [List.foldl_cons]
    apply ih
    intro i u hu
    simp only [buildStep] at hu ⊢
    by_cases hi : e.id = i
    · subst hi
      rw [dictGet_dictPush_self] at hu
      simp only [Option.getD_some] at hu
      rcases List.mem_append.mp hu with hold | hnew
      · exact foldl_push_mem _ _ _ _ _ (hm _ _ hold)
      · exact foldl_push_mem_self _ _ _ _ hnew
    · rw [dictGet_dictPush_ne _ _ _ _ (Ne.symm hi)] at hu
      exact foldl_push_mem _ _ _ _ _ (hm _ _ hu)

/-- Cross-map invariant of the built history: every worker associated with
an id has that id in its recorded sequence. -/
theorem buildMaps_cross (events : List Event) (id : String) (w : WKey)
    (h : w ∈ (dictGet (buildMaps events).2 id).getD []) :
    id ∈ (dictGet (buildMaps events).1 w).getD [] :=
  foldl_buildStep_cross events ([], []) (by simp [dictGet]) id w h

/-- Python's `worker_tests[:worker_tests.index(failing_id)]` is the part of
the sequence strictly before the first occurrence. -/
theorem take_pyIndex_eq_takeWhile (l : List String) (a : String) :
    l.take (pyIndex l a) = l.takeWhile (fun x => x != a) := by
  induction l with
  | nil => rfl
  | cons x xs ih =>
    by_cases h : x = a
    · have hb : (x == a) = true := beq_iff_eq.mpr h
      simp [pyIndex, List.findIdx_cons, hb, List.takeWhile_cons, bne]
    · have hb : (x == a) = false := beq_eq_false_iff_ne.mpr h
      simp only [pyIndex, List.findIdx_cons, hb, cond_false, List.take_succ_cons,
        List.takeWhile_cons, bne, Bool.not_false, if_true]
      simp only [pyIndex, bne] at ih
      exact congrArg (x :: ·) ih

/-- The accumulation loop of `_prior_tests` succeeds and concatenates the
per-worker cut sequences as soon as every listed worker's recorded
sequence contains the failing id. -/
theorem priorLoop_ok (wt : List (WKey × List String)) (id : String)
    (ws : List WKey) (h : ∀ w ∈ ws, id ∈ (dictGet wt w).getD []) :
    priorLoop wt id ws = .ok (ws.flatMap
      (fun w => ((dictGet wt w).getD []).takeWhile (fun t => t != id))) := by
  induction ws with
  | nil => rfl
  | cons w ws ih =>
    have hw := h w (List.mem_cons_self _ _)
    rcases hget : dictGet wt w with _ | l
    · rw [hget] at hw
      simp at hw
    · rw [hget] at hw
      simp only [Option.getD_some] at hw
      simp only [priorLoop, priorOfWorker, hget]
      rw [if_pos (List.elem_iff.mpr hw)]
      rw [ih (fun w' hw' => h w' (List.mem_cons_of_mem _ hw'))]
      simp only [List.flatMap_cons, hget, Option.getD_some]
      rw [take_pyIndex_eq_takeWhile]

/-!
### C10 — `_prior_tests` with multiple (or sentinel) workers

For a failing id that appears in the stream, `_prior_tests` returns the
concatenation, over every worker the id was associated with, of that
worker's recorded sequence cut at the id's *first* occurrence there.
-/

/-- Shared characterization: for an id that appears in the stream,
`_prior_tests` succeeds and returns the per-worker cut sequences
concatenated over `test_to_worker[id]`. -/
theorem priorTests_eq_flatMap_of_mem (events : List Event) (id : String)
    (h : ∃ e ∈ events, e.id = id) :
    priorTests events id = .ok ((workersOfId events id).flatMap
      (fun w => (workerSeq events w).takeWhile (fun t => t != id))) := by
  rw [priorTests, priorTestsCore, dictGet_buildMaps_isSome events id h]
  exact priorLoop_ok _ _ _ (fun w hw => buildMaps_cross events id w (by
    rw [dictGet_buildMaps_isSome events id h]
    simpa using hw))

/-- C10: for every failing test id appearing in the event stream,
`_prior_tests` returns, concatenated over every worker the id was
associated with (`test_to_worker`, possibly with repetitions or the
sentinel no-worker value), the part of that worker's recorded sequence
strictly before the id's first occurrence on that worker, preserving
relative order. -/
theorem prior_tests_concat_over_workers (events : List Event) (id : String)
    (h : ∃ e ∈ events, e.id = id) :
    priorTests events id = .ok ((workersOfId events id).flatMap
      (fun w => (workerSeq events w).takeWhile (fun t => t != id))) :=
  priorTests_eq_flatMap_of_mem events id h

/-- C10 witness: a stream where `t3` was observed on two workers, appearing
after `t1` on `worker-0` and after `t2` on `worker-1`. -/
theorem prior_tests_concat_over_workers_witness :
    priorTests
      [⟨"t1", ["worker-0"]⟩, ⟨"t2", ["worker-1"]⟩, ⟨"t3", ["worker-0"]⟩,
        ⟨"t3", ["worker-1"]⟩] "t3" =
      .ok ((workersOfId
          [⟨"t1", ["worker-0"]⟩, ⟨"t2", ["worker-1"]⟩, ⟨"t3", ["worker-0"]⟩,
            ⟨"t3", ["worker-1"]⟩] "t3").flatMap
        (fun w => (workerSeq
            [⟨"t1", ["worker-0"]⟩, ⟨"t2", ["worker-1"]⟩, ⟨"t3", ["worker-0"]⟩,
              ⟨"t3", ["worker-1"]⟩] w).takeWhile (fun t => t != "t3"))) :=
  prior_tests_concat_over_workers _ _ ⟨⟨"t3", ["worker-0"]⟩, by simp, rfl⟩

/-!
### C3 — `_prior_tests` on an id absent from the stream
-/

/-- C3: for every failing test id that appears in no event of the decoded
run stream, `_prior_tests` raises a key-lookup error (the `KeyError` of
`self._test_to_worker[failing_id]`, modelled as `.error ()`); it never
silently returns an empty list. -/
theorem prior_tests_absent_id_errors (events : List Event) (id : String)
    (h : ∀ e ∈ events, e.id ≠ id) :
    priorTests events id = .error () ∧ priorTests events id ≠ .ok [] := by
  have hnone := dictGet_buildMaps_none events id h
  refine ⟨?_, ?_⟩
  · rw [priorTests, priorTestsCore, hnone]
  · rw [priorTests, priorTestsCore, hnone]
    simp

/-- C3 witness: the id `absent` occurs in no event. -/
theorem prior_tests_absent_id_errors_witness :
    priorTests [⟨"t1", ["worker-0"]⟩] "absent" = .error () ∧
      priorTests [⟨"t1", ["worker-0"]⟩] "absent" ≠ .ok [] :=
  prior_tests_absent_id_errors _ _ (by
    intro e he
    simp only [List.mem_singleton] at he
    subst he
    decide)

/-!
### C2 — `_prior_tests` determinism and prior-sequence correctness
-/

/-- C2: on a fixed event stream, for a failing id associated with exactly
one worker, `_prior_tests` returns exactly the part of that worker's
arrival-ordered recorded sequence strictly before the id's position, and
calling it twice on the same analyzer state is deterministic and
idempotent: the memoised second call returns the same result.
(The `hnd` hypothesis records that an event's tags form a set, as in the
subunit protocol, so one event never names the same worker twice.) -/
theorem prior_tests_single_worker_and_idempotent (events : List Event)
    (id : String) (w : WKey)
    (hnd : ∀ e ∈ events, (workersOf e).Nodup)
    (hw : (events.filter (fun e => e.id == id)).flatMap workersOf = [w]) :
    priorTests events id =
      .ok (((events.filter (fun e => decide (w ∈ workersOf e))).map
        (·.id)).takeWhile (fun t => t != id)) ∧
    (priorTestsM ⟨none⟩ events id).1 = priorTests events id ∧
    (priorTestsM (priorTestsM ⟨none⟩ events id).2 events id).1 =
      (priorTestsM ⟨none⟩ events id).1 := by
  have hocc : ∃ e ∈ events, e.id = id := by
    rcases hfil : events.filter (fun e => e.id == id) with _ | ⟨e, es⟩
    · rw [hfil] at hw
      simp at hw
    · refine ⟨e, ?_, ?_⟩
      · exact List.mem_of_mem_filter (hfil ▸ List.mem_cons_self e es)
      · have := List.of_mem_filter (hfil ▸ List.mem_cons_self e es)
        simpa using this
  refine ⟨?_, ?_, ?_⟩
  · rw [priorTests_eq_flatMap_of_mem events id hocc, workersOfId_eq, hw]
    simp only [List.flatMap_cons, List.flatMap_nil, List.append_nil]
    rw [workerSeq_eq events w hnd]
  · simp [priorTestsM, priorTests]
  · simp only [priorTestsM]
    rcases h : (buildMaps events).1.isEmpty <;> simp [h]

/-- C2 witness: two tests on one worker; the prior tests of `t2` are
exactly `[t1]`, and the memoised second call agrees. -/
theorem prior_tests_single_worker_and_idempotent_witness :
    priorTests [⟨"t1", ["worker-0"]⟩, ⟨"t2", ["worker-0"]⟩] "t2" =
      .ok ((([⟨"t1", ["worker-0"]⟩, ⟨"t2", ["worker-0"]⟩] :
          List Event).filter
            (fun e => decide (some "worker-0" ∈ workersOf e))).map (·.id)
        |>.takeWhile (fun t => t != "t2")) ∧
    (priorTestsM ⟨none⟩ [⟨"t1", ["worker-0"]⟩, ⟨"t2", ["worker-0"]⟩] "t2").1 =
      priorTests [⟨"t1", ["worker-0"]⟩, ⟨"t2", ["worker-0"]⟩] "t2" ∧
    (priorTestsM
        (priorTestsM ⟨none⟩ [⟨"t1", ["worker-0"]⟩, ⟨"t2", ["worker-0"]⟩]
          "t2").2
        [⟨"t1", ["worker-0"]⟩, ⟨"t2", ["worker-0"]⟩] "t2").1 =
      (priorTestsM ⟨none⟩ [⟨"t1", ["worker-0"]⟩, ⟨"t2", ["worker-0"]⟩]
        "t2").1 :=
  prior_tests_single_worker_and_idempotent _ _ (some "worker-0")
    (by decide) (by decide)

/-!
### C1 and C8 — the analyze_isolation branch as it actually executes

In this snapshot the branch's calls into its own helpers are malformed:
`_run_tests(cmd)` (run.py:329 and 365) passes one positional argument to a
function with five required positional parameters, and
`_prior_tests(latest_run, spurious_failure)` (run.py:349) omits the
required `failing_id` of `_prior_tests(self, run, failing_id)`.  Python
raises `TypeError` at such a call site, so with any non-empty failing-id
set the branch crashes on the first phase-a iteration: no test subprocess
is spawned, no bisection probe executes, no spurious failure is confirmed
and no conflict map is built.  The bisection loop at lines 351-398
implements the spec's intended algorithm — its working form ships in the
refactored `bisect_tests.IsolationAnalyzer`, exercised by
`test_bisect_tests.py` — but here it is unreachable: the call arity is a
porting slip (elsewhere, lines 288 and 303, `_run_tests` is called with
all its arguments).
-/

/-- C1 evaluated at the failing input: with a non-empty candidate
failing-id set (one id here, whatever its ordered candidate-cause list
would have been), the `analyze_isolation` branch raises `TypeError` at the
first `_run_tests(cmd)` call — the bisection loop is never entered, zero
probes execute, and the failure is assigned no outcome; the command ends
in an unhandled exception rather than terminating with a cause or
"unknown". -/
theorem isolation_crashes_before_any_probe (inLatest : String → Bool)
    (oracle : String → List String → Bool) (t : String)
    (rest : List String) :
    isolationBranchExec inLatest oracle (t :: rest) = .error .typeError :=
  rfl

/-- C8 evaluated over every input: the conflict map is never built — the
branch either returns exit code 0 with no conflict entries and no probes
(empty failing set) or raises `TypeError` before `spurious_failures` or
`test_conflicts` exist; the exit-code-3, one-entry-per-spurious-failure
path of run.py lines 402-407 is unreachable. -/
theorem isolation_conflict_map_unreachable (inLatest : String → Bool)
    (oracle : String → List String → Bool) (ids : List String) :
    isolationBranchExec inLatest oracle ids =
      (if ids.isEmpty then .ok (0, [], 0) else .error .typeError) := by
  cases ids <;> rfl

/-!
### C6 — the until-failure success re-check and the subunit flag

In `_run_tests` the re-check is guarded by `if subunit_out:` as the claim
says; but in the ad-hoc (`no_discover`) loop the guard is `if subunit:`,
which tests the imported *module* (always truthy), so there the override
happens even when subunit output was not requested.
-/

/-- C6 evaluated at the failing input: an ad-hoc until-failure iteration
with `subunit_out = False`, a Stream Loader return of `0` and a persisted
stream containing a failure is overridden to result `1` (the guard
`if subunit:` is the always-truthy module), whereas the batch path
(`_run_tests`) honours the flag and keeps the loader's `0` unchanged. -/
theorem adhoc_recheck_ignores_subunit_flag :
    adhocIterResult false 0 false = 1 ∧ batchIterResult false 0 false = 0 :=
  ⟨rfl, rfl⟩

/-!
### C4 — isolation analysis on an empty failing set

`run_command`'s `analyze_isolation` branch, given zero failing ids, skips
both phases (the `for test_id in ids` loop body never runs and
`if not spurious_failures: return 0` fires) and returns success without
raising any empty-input error — contradicting the spec and the project's
own test `test_bisect_no_failures_provided`, which expects a `ValueError`.
-/

/-- C4 evaluated at the failing input: with an empty failing-id set the
isolation branch spawns zero test subprocesses and returns exit code 0 —
it does not fail with an empty-input error. -/
theorem isolation_empty_failing_returns_zero
    (passesAlone inLatest : String → Bool) (cc : String → List String)
    (oracle : String → List String → Bool) :
    isolationBranch [] passesAlone inLatest cc oracle = (0, 0) :=
  rfl

/-!
### C9 — the until-failure loop stops at the first non-zero result
-/

/-- The retry loop, started at iteration `k` with enough fuel, runs exactly
through the leading zero-result iterations and returns the first non-zero
computed result. -/
theorem untilFailureLoop_start (res : Nat → Nat) :
    ∀ j fuel k, (∀ i, i < j → res (k + i) = 0) → res (k + j) ≠ 0 → j < fuel →
      untilFailureLoop res fuel k = some (k + j + 1, res (k + j)) := by
  intro j
  induction j with
  | zero =>
    intro fuel k hz hj hfuel
    cases fuel with
    | zero => omega
    | succ f =>
      simp only [untilFailureLoop]
      rw [if_pos (by simpa using hj)]
      simp
  | succ j ih =>
    intro fuel k hz hj hfuel
    cases fuel with
    | zero => omega
    | succ f =>
      have h0 : res k = 0 := by simpa using hz 0 (Nat.succ_pos j)
      simp only [untilFailureLoop]
      rw [if_neg (by simp [h0])]
      have harith : k + 1 + j = k + (j + 1) := by omega
      have hrec := ih f (k + 1)
        (fun i hi => by
          have := hz (i + 1) (by omega)
          simpa [Nat.add_assoc, Nat.add_comm 1 i] using this)
        (by rw [harith]; exact hj) (by omega)
      rw [hrec, harith]

/-- C9: in a non-ad-hoc until-failure run, the batch loop returns at the
first iteration whose computed result (`batchIterResult`, that is the
Stream Loader's code possibly overridden by the subunit re-check) is
non-zero, having executed exactly that many iterations and returning
exactly that iteration's code; zero-result iterations never terminate the
loop.  The source loop is unbounded (`while True`); the statement holds
for every sufficiently large fuel of the executable model. -/
theorem until_failure_stops_at_first_nonzero (subunitOut : Bool)
    (loadResult : Nat → Nat) (streamSuccess : Nat → Bool) (j fuel : Nat)
    (hzero : ∀ i, i < j →
      batchIterResult subunitOut (loadResult i) (streamSuccess i) = 0)
    (hj : batchIterResult subunitOut (loadResult j) (streamSuccess j) ≠ 0)
    (hfuel : j < fuel) :
    untilFailureLoop
      (fun i => batchIterResult subunitOut (loadResult i) (streamSuccess i))
      fuel 0 =
      some (j + 1, batchIterResult subunitOut (loadResult j) (streamSuccess j)) := by
  have h := untilFailureLoop_start
    (fun i => batchIterResult subunitOut (loadResult i) (streamSuccess i))
    j fuel 0 (by simpa using hzero) (by simpa using hj) hfuel
  simpa using h

/-- C9 witness: pass, pass, fail — the loop executes exactly 3 iterations
and returns the third iteration's non-zero code 2. -/
theorem until_failure_stops_at_first_nonzero_witness :
    untilFailureLoop
      (fun i => batchIterResult false (if i < 2 then 0 else 2) true) 10 0 =
      some (2 + 1, batchIterResult false (if 2 < 2 then 0 else 2) true) :=
  until_failure_stops_at_first_nonzero false (fun i => if i < 2 then 0 else 2)
    (fun _ => true) 2 10 (by decide) (by decide) (by decide)

/-!
### C7 — isolated mode: maximum exit code, cleanUp once per run
-/

/-- The per-test loop of isolated mode: when every per-test run returns a
code, the final result is the running maximum folded over the ids. -/
theorem isolatedLoop_ok (f : String → Except String Nat) :
    ∀ ids acc, (∀ id ∈ ids, ∃ c, f id = .ok c) →
      (isolatedLoop f ids acc).1 =
        .ok (ids.foldl (fun a id => max a (exitOf (f id))) acc) := by
  intro ids
  induction ids with
  | nil => intro acc _; rfl
  | cons id rest ih =>
    intro acc h
    obtain ⟨c, hc⟩ := h id (List.mem_cons_self _ _)
    simp only [isolatedLoop, runTestsTraced, hc, List.foldl_cons]
    rw [ih (max acc c) (fun i hi => h i (List.mem_cons_of_mem _ hi))]
    simp [exitOf, hc]

/-- The per-test loop emits exactly one `cleanUp` per started run,
whatever each run's outcome. -/
theorem isolatedLoop_cleanup_count (f : String → Except String Nat) :
    ∀ ids acc,
      ((isolatedLoop f ids acc).2.count Ev.cleanUp) = runsStarted f ids := by
  intro ids
  induction ids with
  | nil => intro acc; rfl
  | cons id rest ih =>
    intro acc
    simp only [isolatedLoop, runTestsTraced]
    rcases hc : f id with e | c
    · simp [runsStarted, hc]
    · simp only [runsStarted, hc, List.count_append, ih]
      simp [Nat.add_comm]

/-- C7: in isolated mode the orchestrator runs each discovered id as an
independent single-id run and, when no run propagates an error, returns
the maximum exit code observed (0 when all pass, since the running maximum
starts at `result = 0`); and `cleanUp` fires exactly once per started
per-test run regardless of outcome, plus once for the discovery pass
(`setUp`/`list_tests`/`cleanUp`). -/
theorem isolated_mode_max_code_and_cleanup (ids : List String)
    (f : String → Except String Nat) :
    ((∀ id ∈ ids, ∃ c, f id = .ok c) →
      (isolatedMode ids f).1 =
        .ok (ids.foldl (fun a id => max a (exitOf (f id))) 0)) ∧
    (isolatedMode ids f).2.count Ev.cleanUp = runsStarted f ids + 1 := by
  constructor
  · intro h
    simpa [isolatedMode] using isolatedLoop_ok f ids 0 h
  · simp only [isolatedMode, List.count_append]
    rw [isolatedLoop_cleanup_count f ids 0]
    simp [Nat.add_comm]

/-- C7 witness: discovery returns `{A, B, C}` with scripted per-test codes
`{0, 2, 0}`: the overall result is 2 and `cleanUp` fires 3 + 1 times. -/
theorem isolated_mode_max_code_and_cleanup_witness :
    (isolatedMode ["A", "B", "C"]
        (fun s => if s = "B" then .ok 2 else .ok 0)).1 =
      .ok ((["A", "B", "C"] : List String).foldl
        (fun a id => max a (exitOf (if id = "B" then .ok 2 else .ok 0))) 0) ∧
    (isolatedMode ["A", "B", "C"]
        (fun s => if s = "B" then .ok 2 else .ok 0)).2.count Ev.cleanUp =
      runsStarted (fun s => if s = "B" then .ok 2 else .ok 0)
        ["A", "B", "C"] + 1 :=
  ⟨(isolated_mode_max_code_and_cleanup ["A", "B", "C"]
      (fun s => if s = "B" then .ok 2 else .ok 0)).1
    (by
      intro id hid
      fin_cases hid
      · exact ⟨0, rfl⟩
      · exact ⟨2, rfl⟩
      · exact ⟨0, rfl⟩),
    (isolated_mode_max_code_and_cleanup ["A", "B", "C"]
      (fun s => if s = "B" then .ok 2 else .ok 0)).2⟩

/-!
### C5 — the ad-hoc (no_discover) test-id transform
-/

theorem pyRFind_ge_neg_one (l : List Char) (c : Char) : -1 ≤ pyRFind l c := by
  induction l with
  | nil => simp [pyRFind]
  | cons x xs ih =>
    simp only [pyRFind]
    split_ifs <;> omega

theorem pyRFind_eq_neg_one_iff (l : List Char) (c : Char) :
    pyRFind l c = -1 ↔ c ∉ l := by
  induction l with
  | nil => simp [pyRFind]
  | cons x xs ih =>
    simp only [pyRFind]
    by_cases h : pyRFind xs c ≥ 0
    · have hmem : c ∈ xs := by
        by_contra hc
        rw [← ih] at hc
        omega
      rw [if_pos h]
      constructor
      · intro habs
        omega
      · intro habs
        exact absurd (List.mem_cons_of_mem x hmem) habs
    · have hxs : pyRFind xs c = -1 := by
        have := pyRFind_ge_neg_one xs c
        omega
      have hnmem : c ∉ xs := ih.mp hxs
      rw [if_neg h]
      by_cases hx : x = c
      · rw [if_pos hx]
        subst hx
        simp
      · rw [if_neg hx]
        simp [List.mem_cons, hnmem, Ne.symm hx]

theorem pyRFind_lt_length (l : List Char) (c : Char) :
    pyRFind l c < (l.length : Int) := by
  induction l with
  | nil => simp [pyRFind]
  | cons x xs ih =>
    simp only [pyRFind, List.length_cons]
    split_ifs <;> push_cast <;> omega

theorem pyRFind_append (xs ys : List Char) (c : Char) :
    pyRFind (xs ++ ys) c =
      if c ∈ ys then (xs.length : Int) + pyRFind ys c else pyRFind xs c := by
  induction xs with
  | nil =>
    by_cases h : c ∈ ys
    · simp [h]
    · simp [h, pyRFind, (pyRFind_eq_neg_one_iff ys c).mpr h]
  | cons x xs ih =>
    have hstep : pyRFind ((x :: xs) ++ ys) c =
        (if pyRFind (xs ++ ys) c ≥ 0 then pyRFind (xs ++ ys) c + 1
          else if x = c then 0 else -1) := by
      rw [List.cons_append]
      simp only [pyRFind]
    rw [hstep, ih]
    by_cases h : c ∈ ys
    · have hge : 0 ≤ pyRFind ys c := by
        have h1 := pyRFind_ge_neg_one ys c
        have h2 : pyRFind ys c ≠ -1 := fun hc =>
          (pyRFind_eq_neg_one_iff ys c).mp hc h
        omega
      rw [if_pos h, if_pos h,
        if_pos (by omega : (xs.length : Int) + pyRFind ys c ≥ 0)]
      simp only [List.length_cons]
      push_cast
      omega
    · rw [if_neg h, if_neg h]
      rfl

theorem splitLastSep_none_iff (p : List Char) :
    splitLastSep p = none ↔ '/' ∉ p := by
  induction p with
  | nil => simp [splitLastSep]
  | cons c cs ih =>
    simp only [splitLastSep]
    rcases h : splitLastSep cs with _ | ⟨d, b⟩
    · have hns : '/' ∉ cs := ih.mp h
      by_cases hc : c = '/'
      · subst hc
        simp
      · simp [List.mem_cons, hns, hc, Ne.symm hc]
    · have hmem : '/' ∈ cs := by
        by_contra hns
        rw [← ih] at hns
        rw [h] at hns
        cases hns
      simp [List.mem_cons, hmem]

theorem splitLastSep_eq (p : List Char) :
    ∀ d b, splitLastSep p = some (d, b) → p = d ++ '/' :: b ∧ '/' ∉ b := by
  induction p with
  | nil => intro d b h; cases h
  | cons c cs ih =>
    intro d b h
    rcases hcs : splitLastSep cs with _ | ⟨d', b'⟩
    · simp only [splitLastSep, hcs] at h
      by_cases hc : c = '/'
      · rw [if_pos hc] at h
        subst hc
        simp only [Option.some.injEq, Prod.mk.injEq] at h
        obtain ⟨h1, h2⟩ := h
        subst h1
        subst h2
        exact ⟨rfl, (splitLastSep_none_iff cs).mp hcs⟩
      · rw [if_neg hc] at h
        cases h
    · simp only [splitLastSep, hcs] at h
      simp only [Option.some.injEq, Prod.mk.injEq] at h
      obtain ⟨h1, h2⟩ := h
      subst h1
      subst h2
      obtain ⟨hcs', hb⟩ := ih d' b' hcs
      exact ⟨by rw [hcs', List.cons_append], hb⟩

theorem pyRFind_eq_match_rfind (l : List Char) (c : Char) :
    pyRFind l c = (match rfind? l c with | none => -1 | some n => (n : Int)) := by
  induction l with
  | nil => rfl
  | cons x xs ih =>
    simp only [pyRFind, rfind?]
    rcases h : rfind? xs c with _ | r
    · rw [h] at ih
      simp only [ih]
      rw [if_neg (by omega)]
      by_cases hx : x = c
      · simp [hx]
      · simp [hx]
    · rw [h] at ih
      simp only [ih]
      rw [if_pos (by omega : (r : Int) ≥ 0)]
      push_cast
      ring

/-- `os.path.splitext`'s root, computed on the decomposition of a path at
its last separator, agrees with the specification-level reading: strip the
final extension of the last segment only. -/
theorem splitextRoot_decomp (d b : List Char) (hb : '/' ∉ b) :
    splitextRoot (d ++ '/' :: b) = d ++ '/' :: specStripExt b := by
  have hsep : pyRFind (d ++ '/' :: b) '/' = (d.length : Int) := by
    rw [pyRFind_append, if_pos (List.mem_cons_self _ _)]
    have hb' : pyRFind b '/' = -1 := (pyRFind_eq_neg_one_iff b '/').mpr hb
    simp [pyRFind, hb']
  rcases hdot : rfind? b '.' with _ | db
  · have hnb : '.' ∉ b := by
      apply (pyRFind_eq_neg_one_iff b '.').mp
      rw [pyRFind_eq_match_rfind, hdot]
    have hdotidx : pyRFind (d ++ '/' :: b) '.' = pyRFind d '.' := by
      rw [pyRFind_append, if_neg]
      simp [List.mem_cons, hnb]
    simp only [splitextRoot]
    rw [hsep, hdotidx, if_neg (by have := pyRFind_lt_length d '.'; omega)]
    simp only [specStripExt, hdot]
  · have hdb : pyRFind b '.' = (db : Int) := by
      rw [pyRFind_eq_match_rfind, hdot]
    have hmemb : '.' ∈ b := by
      by_contra hc
      rw [(pyRFind_eq_neg_one_iff b '.').mpr hc] at hdb
      omega
    have hdotidx : pyRFind (d ++ '/' :: b) '.' =
        (d.length : Int) + ((db : Int) + 1) := by
      rw [pyRFind_append, if_pos (List.mem_cons_of_mem _ hmemb)]
      simp only [pyRFind, hdb]
      rw [if_pos (by omega : (db : Int) ≥ 0)]
    have hdblt : db < b.length := by
      have := pyRFind_lt_length b '.'
      rw [hdb] at this
      exact_mod_cast this
    simp only [splitextRoot]
    rw [hsep, hdotidx, if_pos (by omega)]
    have ht1 : ((d.length : Int) + ((db : Int) + 1)).toNat = d.length + (db + 1) := by
      omega
    have ht2 : ((d.length : Int) + 1).toNat = d.length + 1 := by
      omega
    rw [ht1, ht2]
    have htake : (d ++ '/' :: b).take (d.length + (db + 1)) =
        d ++ '/' :: b.take db := by
      rw [List.take_append_eq_append_take]
      congr 1
      · exact List.take_of_length_le (by omega)
      · have harith : d.length + (db + 1) - d.length = db + 1 := by omega
        rw [harith, List.take_succ_cons]
    have hdrop : (d ++ '/' :: b.take db).drop (d.length + 1) = b.take db := by
      rw [List.drop_append_eq_append_drop]
      rw [List.drop_eq_nil_of_le (by omega)]
      have harith : d.length + 1 - d.length = 1 := by omega
      rw [harith]
      rfl
    rw [htake, hdrop]
    simp only [specStripExt, hdot]
    by_cases hany : (b.take db).any (fun ch => ch != '.')
    · rw [if_pos hany, if_pos hany]
    · rw [if_neg hany, if_neg hany]

/-- The source transform agrees everywhere with the specification-level
reading. -/
theorem pyAdhocId_eq_specAdhocId (p : List Char) :
    pyAdhocId p = specAdhocId p := by
  by_cases hsep : '/' ∈ p
  · rcases hsplit : splitLastSep p with _ | ⟨d, b⟩
    · exact absurd ((splitLastSep_none_iff p).mp hsplit) (not_not_intro hsep)
    · obtain ⟨hp, hb⟩ := splitLastSep_eq p d b hsplit
      rw [pyAdhocId, if_pos hsep]
      simp only [specAdhocId, hsplit]
      rw [hp, splitextRoot_decomp d b hb]
  · rw [pyAdhocId, if_neg hsep]
    simp only [specAdhocId, (splitLastSep_none_iff p).mpr hsep]

/-- C5: in ad-hoc (`no_discover`) mode the identifier passed to the spawned
worker is the input unchanged when it contains no path separator, and
otherwise the input with the final extension of its last segment stripped
and every path separator replaced by a dot — including paths whose
segments themselves contain dots (`specAdhocId` is the spec-level
formulation of that transform). -/
theorem adhoc_id_transform (p : List Char) :
    (¬ '/' ∈ p → pyAdhocId p = p) ∧ pyAdhocId p = specAdhocId p :=
  ⟨fun h => by rw [pyAdhocId, if_neg h], pyAdhocId_eq_specAdhocId p⟩

/-- C5 witness: a bare dotted id is passed through unchanged, and
`pkg/mod/test_file.py` becomes `pkg.mod.test_file` (the claim's example);
`pkg.mod/sub.dir/test.file.py` keeps its dot-bearing segments. -/
theorem adhoc_id_transform_witness :
    pyAdhocId "pkg.mod.Class.test".data = "pkg.mod.Class.test".data ∧
    pyAdhocId "pkg/mod/test_file.py".data = "pkg.mod.test_file".data ∧
    pyAdhocId "pkg.mod/sub.dir/test.file.py".data =
      "pkg.mod.sub.dir.test.file".data :=
  ⟨(adhoc_id_transform "pkg.mod.Class.test".data).1 (by decide),
    by decide, by decide⟩

end Stestr
